import Mathlib

/-!
Shallow embedding of `src/extract_timestamps.py` (class `GoProTimestampExtractor`).

Modelling conventions:
* Timestamps (`datetime.datetime`) are rational numbers of seconds since an
  arbitrary epoch; `datetime.timedelta(seconds=d)` addition is rational addition.
  Python `datetime` always carries a non-negative sub-second part, so dropping
  the sub-second part (`strftime` without `%f`) is `Int.floor` on this model.
* Durations (Python floats) are rationals.
* The regex digit class `\d` is modelled as an ASCII decimal digit.
* A directory scan is modelled by the data the OS calls return: the list of
  regular file names for the non-recursive branch (`os.listdir` + `os.path.isfile`),
  and the list of `(relative root, files)` pairs for the recursive branch
  (`os.walk`, with roots already expressed relative to the scan directory, as
  `os.path.relpath(root, directory)` computes them later).
* Paths are carried as `(folder, filename)` pairs: the source joins them with
  `os.path.join` and later splits them back with `basename`/`dirname`+`relpath`,
  which round-trips.
* `ffmpeg.probe` is an external collaborator; it is a parameter
  `probe : String × String → ℚ × ℚ` returning (creation time, duration seconds)
  for a `(folder, filename)` pair.
-/

namespace GoPro

/-- One physical video file, i.e. the dict built at
`src/extract_timestamps.py:112-117`: `{"file", "creation_time", "duration",
"chapter", "session", "folder"}`.  `chapter` and `session` are `Option Nat`
because `parse_filename` returns `None, None` on a failed parse. -/
structure ChapterRecord where
  file : String
  creation_time : ℚ
  duration : ℚ
  chapter : Option Nat
  session : Option Nat
  folder : String
deriving DecidableEq

/-- One output row, i.e. the dict built at `src/extract_timestamps.py:143-151`.
The source stores `Duration` as the string `str(datetime.timedelta(seconds=d))`;
this model keeps the raw seconds value `d` (no claim concerns the formatting). -/
structure TimelineEntry where
  Filename : String
  start_time : ℚ
  stop_time : ℚ
  duration : ℚ
  chapter : Option Nat
  session : Option Nat
  folder : String
deriving DecidableEq

/-! ### Name Decoder: `parse_filename` (src/extract_timestamps.py:75-79)

`re.search(r'GX(\d{2})(\d{4})\.MP4', filename)` scans start positions left to
right and succeeds at the first position where the (fixed-width) pattern
matches; trailing characters after the `4` are allowed because the pattern is
unanchored.  `int(group)` is the numeric value of the digit group. -/

/-- Numeric value of a decimal digit character (Python `int` on a digit). -/
def digitVal (c : Char) : Nat := c.toNat - 48

/-- Try to match `GX(\d{2})(\d{4})\.MP4` with the match starting at the head of
the character list; on success return the two groups as their numeric values. -/
def matchGXAt : List Char → Option (Nat × Nat)
  | 'G' :: 'X' :: z1 :: z2 :: x1 :: x2 :: x3 :: x4 :: '.' :: 'M' :: 'P' :: '4' :: _ =>
    if z1.isDigit && z2.isDigit && x1.isDigit && x2.isDigit && x3.isDigit && x4.isDigit then
      some (10 * digitVal z1 + digitVal z2,
            1000 * digitVal x1 + 100 * digitVal x2 + 10 * digitVal x3 + digitVal x4)
    else
      none
  | _ => none

/-- Model of `re.search`: try the pattern at each successive start position; the
leftmost match wins. -/
def reSearchGX : List Char → Option (Nat × Nat)
  | [] => none
  | c :: rest =>
    match matchGXAt (c :: rest) with
    | some r => some r
    | none => reSearchGX rest

/-- The decoder `parse_filename` (src/extract_timestamps.py:75-79): on a match return
`int(group(1)), int(group(2))`, otherwise `None, None`. -/
def parse_filename (filename : String) : Option Nat × Option Nat :=
  match reSearchGX filename.data with
  | some (z, x) => (some z, some x)
  | none => (none, none)

/-! ### Directory listing: `list_mp4_files_in_dir` (src/extract_timestamps.py:88-101) -/

/-- Python `f.endswith(post)`: the characters of `post` are a suffix of the
characters of `f` (case-sensitive). -/
def endswith (f post : String) : Bool := post.data.isSuffixOf f.data

/-- The filesystem data a scan consumes: `flat` is the list of regular file
names in the directory (non-recursive branch); `walk` is the `os.walk`
output, each root given relative to the scan directory. -/
inductive ScanInput where
  | flat (entries : List String)
  | walk (dirs : List (String × List String))

/-- The listing `list_mp4_files_in_dir` (src/extract_timestamps.py:88-101), returning
`(folder, filename)` pairs.  Recursive branch: keep a file only if its name
ends with `'.MP4'` and `parse_filename` returns non-`None` chapter and session.
Non-recursive branch: keep every regular file whose name ends with `'.MP4'`
(no parse check); its folder is `relpath(directory, directory) = "."`. -/
def list_mp4_files_in_dir : ScanInput → List (String × String)
  | .walk dirs =>
    dirs.flatMap (fun rf =>
      rf.2.filterMap (fun file =>
        if endswith file ".MP4" then
          match parse_filename file with
          | (some _, some _) => some (rf.1, file)
          | _ => none
        else none))
  | .flat entries =>
    (entries.filter (fun f => endswith f ".MP4")).map (fun f => (".", f))

/-! ### Metadata: `get_file_metadata` (src/extract_timestamps.py:105-118) -/

/-- The probe pass `get_file_metadata` (src/extract_timestamps.py:105-118): for every listed
path, probe creation time and duration, re-parse the filename, and build the
record — unconditionally, even when the parse returns `None, None`. -/
def get_file_metadata (probe : String × String → ℚ × ℚ) (s : ScanInput) :
    List ChapterRecord :=
  (list_mp4_files_in_dir s).map (fun p =>
    let cd := probe p
    let cs := parse_filename p.2
    { file := p.2
      creation_time := cd.1
      duration := cd.2
      chapter := cs.1
      session := cs.2
      folder := p.1 })

/-! ### Session Grouper: `group_files_by_session` (src/extract_timestamps.py:120-127) -/

/-- The grouping key: `creation_time.strftime("%Y-%m-%d %H:%M:%S")` discards
the sub-second part, i.e. truncates the timestamp to the whole second; on the
rational-seconds model that is `Int.floor` (a `datetime`'s sub-second part is
always non-negative).  Two timestamps produce the same formatted string iff
they have the same floored second. -/
def sessionKey (r : ChapterRecord) : Int := ⌊r.creation_time⌋

/-- One iteration of the grouping loop body on the insertion-ordered dict:
append `r` to the entry with key `k`, or append a fresh `(k, [r])` entry. -/
def addToGroup (acc : List (Int × List ChapterRecord)) (k : Int) (r : ChapterRecord) :
    List (Int × List ChapterRecord) :=
  match acc with
  | [] => [(k, [r])]
  | g :: rest =>
    if g.1 = k then (g.1, g.2 ++ [r]) :: rest
    else g :: addToGroup rest k r

/-- The grouper `group_files_by_session` (src/extract_timestamps.py:120-127): a Python dict
is insertion-ordered, modelled as an association list. -/
def group_files_by_session (files_metadata : List ChapterRecord) :
    List (Int × List ChapterRecord) :=
  files_metadata.foldl (fun acc r => addToGroup acc (sessionKey r) r) []

/-! ### Timeline Reconstructor: `process_files_in_session` (src/extract_timestamps.py:129-152) -/

/-- The sort order of `sorted(files, key=lambda x: x['chapter'])`: stable,
ascending on the chapter index.  In Python the key is the `int` chapter value;
comparing a `None` chapter would raise `TypeError`, so the order totalises the
key with `getD 0` — every claim about reconstruction assumes parsed chapters. -/
def chapterLe (a b : ChapterRecord) : Bool := a.chapter.getD 0 ≤ b.chapter.getD 0

/-- The loop of `process_files_in_session` (src/extract_timestamps.py:132-151),
with the loop state (`start_time`, initially `None`, and `prev_duration`,
initially `0`) made explicit. -/
def sessionLoop (start_time : Option ℚ) (prev_duration : ℚ) :
    List ChapterRecord → List TimelineEntry
  | [] => []
  | file_meta :: rest =>
    let start : ℚ :=
      match start_time with
      | none => file_meta.creation_time
      | some t => t + prev_duration
    let stop : ℚ := start + file_meta.duration
    { Filename := file_meta.file
      start_time := start
      stop_time := stop
      duration := file_meta.duration
      chapter := file_meta.chapter
      session := file_meta.session
      folder := file_meta.folder } :: sessionLoop (some start) file_meta.duration rest

/-- The reconstructor `process_files_in_session` (src/extract_timestamps.py:129-152): stable-sort
by chapter index (`sorted` is a stable merge sort producing a new list), then
run the chaining loop. -/
def process_files_in_session (files : List ChapterRecord) : List TimelineEntry :=
  sessionLoop none 0 (files.mergeSort chapterLe)

/-- State-passing rendering of the reconstruction loop for the frame property:
alongside the emitted entries it returns each visited record as the loop body
leaves it.  The body (src/extract_timestamps.py:134-151) only reads
`file_meta` fields, so each record is passed through unchanged. -/
def sessionLoopFrame (start_time : Option ℚ) (prev_duration : ℚ) :
    List ChapterRecord → List TimelineEntry × List ChapterRecord
  | [] => ([], [])
  | file_meta :: rest =>
    let start : ℚ :=
      match start_time with
      | none => file_meta.creation_time
      | some t => t + prev_duration
    let stop : ℚ := start + file_meta.duration
    let tail := sessionLoopFrame (some start) file_meta.duration rest
    ({ Filename := file_meta.file
       start_time := start
       stop_time := stop
       duration := file_meta.duration
       chapter := file_meta.chapter
       session := file_meta.session
       folder := file_meta.folder } :: tail.1,
     file_meta :: tail.2)

/-! ### Orchestration: `process_videos` (src/extract_timestamps.py:47-70),
up to the pandas/CSV/JSON rendering (an external result sink). -/

/-- The pipeline core of `process_videos` (src/extract_timestamps.py:49-55): list and probe the
files, group by session, reconstruct each session, and flatten the per-session
results in dict insertion order. -/
def process_videos (probe : String × String → ℚ × ℚ) (s : ScanInput) :
    List TimelineEntry :=
  (group_files_by_session (get_file_metadata probe s)).flatMap
    (fun kg => process_files_in_session kg.2)

/-! ### Concrete sample data used to instantiate the theorems -/

/-- A trivial metadata probe: every file reports creation time 0 and duration 0. -/
def probe0 : String × String → ℚ × ℚ := fun _ => (0, 0)

/-- Chapter 1 of a sample session: creation time 100 s, duration 10 s. -/
def recA : ChapterRecord := ⟨"GX010001.MP4", 100, 10, some 1, some 1, "."⟩

/-- Chapter 2 of the same sample session: same creation stamp, duration 5 s. -/
def recB : ChapterRecord := ⟨"GX020001.MP4", 100, 5, some 2, some 1, "."⟩

/-- A record carrying a (corrupt) negative duration of −5 s. -/
def rNeg : ChapterRecord := ⟨"GX010001.MP4", 100, -5, some 1, some 1, "."⟩

/-- The entry reconstruction emits for `rNeg`: it stops 5 s before it starts. -/
def entryNeg : TimelineEntry := ⟨"GX010001.MP4", 100, 95, -5, some 1, some 1, "."⟩

/-- Scenario A, chapter 0: duration 10 s, creation time `2024-01-01T00:00:00Z`
(Unix epoch second 1704067200). -/
def rS0 : ChapterRecord := ⟨"GX000001.MP4", 1704067200, 10, some 0, some 1, "."⟩

/-- Scenario A, chapter 1: duration 5 s, same creation stamp. -/
def rS1 : ChapterRecord := ⟨"GX010001.MP4", 1704067200, 5, some 1, some 1, "."⟩

/-- A record with creation time 100 s. -/
def recW1 : ChapterRecord := ⟨"GX010001.MP4", 100, 10, some 1, some 1, "."⟩

/-- A record created exactly one second after `recW1`. -/
def recW2 : ChapterRecord := ⟨"GX010002.MP4", (100 : ℚ) + 1, 10, some 1, some 2, "."⟩

/-- A directory holding one decodable file and one file with a lowercase
`.mp4` extension. -/
def scanC : ScanInput := .flat ["GX010001.MP4", "ABCDEFGH.mp4"]

/-- The record the pipeline builds for `GX010001.MP4` under `probe0`. -/
def recC : ChapterRecord := ⟨"GX010001.MP4", 0, 0, some 1, some 1, "."⟩

/-- The single timeline entry `process_videos probe0 scanC` produces. -/
def entryC : TimelineEntry := ⟨"GX010001.MP4", 0, 0, 0, some 1, some 1, "."⟩

/-! ### Helper lemmas -/

/-- If the pattern matches at no start position (i.e. at the head of no
suffix), the regex search fails. -/
theorem reSearchGX_eq_none (l : List Char) (h : ∀ t ∈ l.tails, matchGXAt t = none) :
    reSearchGX l = none := by
  induction l with
  | nil => rfl
  | cons c rest ih =>
    have h0 : matchGXAt (c :: rest) = none := h _ (by simp)
    rw [reSearchGX, h0]
    exact ih fun t ht => h t (by
      rcases (List.mem_tails _ _).1 ht with ⟨u, rfl⟩
      exact (List.mem_tails _ _).2 ⟨c :: u, rfl⟩)

/-- The loop emits one entry per visited record. -/
theorem sessionLoop_length (l : List ChapterRecord) :
    ∀ st prev, (sessionLoop st prev l).length = l.length := by
  induction l with
  | nil => intro st prev; rfl
  | cons f rest ih => intro st prev; simp [sessionLoop, ih]

/-- Entry-by-entry correspondence between the loop output and its input: each
entry copies the record's filename, chapter, session, folder and duration, and
stops exactly `duration` seconds after it starts. -/
theorem sessionLoop_forall₂ (l : List ChapterRecord) :
    ∀ st prev, List.Forall₂
      (fun (e : TimelineEntry) (r : ChapterRecord) =>
        e.stop_time = e.start_time + r.duration ∧ e.duration = r.duration
          ∧ e.chapter = r.chapter ∧ e.session = r.session
          ∧ e.Filename = r.file ∧ e.folder = r.folder)
      (sessionLoop st prev l) l := by
  induction l with
  | nil => intro st prev; exact List.Forall₂.nil
  | cons f rest ih =>
    intro st prev
    exact List.Forall₂.cons ⟨rfl, rfl, rfl, rfl, rfl, rfl⟩ (ih _ _)

/-- Consecutive entries of the loop output are seamless: each entry's stop
time is the next entry's start time. -/
theorem sessionLoop_chain (l : List ChapterRecord) :
    ∀ st prev, (sessionLoop st prev l).Chain' (fun a b => a.stop_time = b.start_time) := by
  induction l with
  | nil => intro st prev; simp [sessionLoop]
  | cons f rest ih =>
    intro st prev
    simp only [sessionLoop]
    rw [List.chain'_cons']
    refine ⟨?_, ih _ _⟩
    intro y hy
    cases rest with
    | nil => simp [sessionLoop] at hy
    | cons g r' =>
      simp only [sessionLoop, List.head?_cons, Option.mem_some_iff] at hy
      subst hy
      rfl

/-- The first entry of a loop started with `start_time = None` begins at the
first record's embedded creation time. -/
theorem sessionLoop_head_start (l : List ChapterRecord) (prev : ℚ) :
    (sessionLoop none prev l).head?.map (fun e => e.start_time)
      = l.head?.map (fun r => r.creation_time) := by
  cases l with
  | nil => rfl
  | cons f rest => rfl

/-- The loop preserves the sequence of chapter indices. -/
theorem sessionLoop_map_chapter (l : List ChapterRecord) :
    ∀ st prev, (sessionLoop st prev l).map (fun e => e.chapter)
      = l.map (fun r => r.chapter) := by
  induction l with
  | nil => intro st prev; rfl
  | cons f rest ih => intro st prev; simp [sessionLoop, ih]

/-- Transitivity of `chapterLe`. -/
theorem chapterLe_trans (a b c : ChapterRecord) :
    chapterLe a b = true → chapterLe b c = true → chapterLe a c = true := by
  simp only [chapterLe, decide_eq_true_eq]
  omega

/-- Totality of `chapterLe`. -/
theorem chapterLe_total (a b : ChapterRecord) :
    (chapterLe a b || chapterLe b a) = true := by
  simp only [chapterLe, Bool.or_eq_true, decide_eq_true_eq]
  omega

/-! ### The claims -/

/-- C2 counterexample: the source decodes with `re.search`, which matches the
pattern anywhere inside the string, so a name with extra characters around a
well-formed `GX010001.MP4` core is accepted rather than reported unparseable. -/
theorem C2_search_counterexample :
    parse_filename "AGX010001.MP4B" = (some 1, some 1) := by decide

/-- C2 (amended): a filename containing `GX` + 2 digits + 4 digits + `.MP4`
as a substring is decoded to the numeric values of the digit groups of the
leftmost such occurrence; a string with no such substring — in particular one
whose extension differs only in case — is reported unparseable `(None, None)`. -/
theorem C2_name_decoder (z1 z2 x1 x2 x3 x4 : Char)
    (h1 : z1.isDigit = true) (h2 : z2.isDigit = true)
    (h3 : x1.isDigit = true) (h4 : x2.isDigit = true)
    (h5 : x3.isDigit = true) (h6 : x4.isDigit = true) :
    parse_filename (String.mk ['G', 'X', z1, z2, x1, x2, x3, x4, '.', 'M', 'P', '4'])
        = (some (10 * digitVal z1 + digitVal z2),
           some (1000 * digitVal x1 + 100 * digitVal x2 + 10 * digitVal x3 + digitVal x4))
      ∧ (∀ s : String, (∀ t ∈ s.data.tails, matchGXAt t = none) →
          parse_filename s = (none, none))
      ∧ parse_filename "GX010001.mp4" = (none, none)
      ∧ parse_filename "ABCDEFGH.mp4" = (none, none) := by
  refine ⟨?_, ?_, by decide, by decide⟩
  · simp [parse_filename, reSearchGX, matchGXAt, h1, h2, h3, h4, h5, h6]
  · intro s h
    simp [parse_filename, reSearchGX_eq_none s.data h]

/-- Witness for C2: the amended decoder contract evaluated on a well-formed
name and on a name containing no occurrence of the pattern. -/
theorem C2_name_decoder_witness :
    parse_filename (String.mk ['G', 'X', '0', '1', '0', '0', '0', '1', '.', 'M', 'P', '4'])
        = (some 1, some 1)
      ∧ parse_filename "HELLO.txt" = (none, none) :=
  ⟨((C2_name_decoder '0' '1' '0' '0' '0' '1' rfl rfl rfl rfl rfl rfl).1).trans (by decide),
   (C2_name_decoder '0' '1' '0' '0' '0' '1' rfl rfl rfl rfl rfl rfl).2.1 "HELLO.txt" (by decide)⟩

/-- C10: `parse_filename` returns either two integers or `(None, None)`,
never a mixed pair; presence of the chapter component is equivalent to
presence of the session component. -/
theorem C10_parse_never_mixed (s : String) :
    ((parse_filename s).1.isSome = true ↔ (parse_filename s).2.isSome = true)
      ∧ (parse_filename s = (none, none)
          ∨ ∃ z x, parse_filename s = (some z, some x)) := by
  unfold parse_filename
  cases h : reSearchGX s.data with
  | none => simp
  | some r => cases r with | mk z x => simp

/-- C3: a negative `duration_seconds` is propagated, not rejected: on a
session holding one record of duration −5 s the reconstructor emits an entry
whose stop time is strictly earlier than its start time. -/
theorem C3_negative_duration :
    process_files_in_session [rNeg] = [entryNeg]
      ∧ entryNeg.stop_time < entryNeg.start_time := by
  constructor
  · unfold process_files_in_session
    rw [List.mergeSort_singleton]
    norm_num [sessionLoop, rNeg, entryNeg]
  · norm_num [entryNeg]

/-- The two components of the state-passing loop: the records come back
exactly as they went in, and the entries agree with the pure loop. -/
theorem sessionLoopFrame_spec (l : List ChapterRecord) :
    ∀ st prev, (sessionLoopFrame st prev l).2 = l
      ∧ (sessionLoopFrame st prev l).1 = sessionLoop st prev l := by
  induction l with
  | nil => intro st prev; exact ⟨rfl, rfl⟩
  | cons f rest ih =>
    intro st prev
    simp only [sessionLoopFrame, sessionLoop]
    exact ⟨by rw [(ih _ _).1], by rw [(ih _ _).2]⟩

/-- C1: on a session whose records all carry a parsed chapter index, the
reconstructor emits one entry per record; the internally sorted list is a
permutation of the input, ascending in chapter index; each entry copies its
record's chapter and filename and stops `duration` seconds after it starts;
the first entry starts at the first sorted record's embedded creation time;
and consecutive entries are chained gap-free: each stop time is the next
start time. -/
theorem C1_timeline_reconstruction (files : List ChapterRecord)
    (_hch : ∀ r ∈ files, (r.chapter).isSome = true) :
    (process_files_in_session files).length = files.length
      ∧ (files.mergeSort chapterLe).Perm files
      ∧ (files.mergeSort chapterLe).Pairwise (fun a b => chapterLe a b = true)
      ∧ (process_files_in_session files).map (fun e => e.chapter)
          = (files.mergeSort chapterLe).map (fun r => r.chapter)
      ∧ List.Forall₂
          (fun (e : TimelineEntry) (r : ChapterRecord) =>
            e.stop_time = e.start_time + r.duration ∧ e.chapter = r.chapter
              ∧ e.Filename = r.file)
          (process_files_in_session files) (files.mergeSort chapterLe)
      ∧ (process_files_in_session files).head?.map (fun e => e.start_time)
          = (files.mergeSort chapterLe).head?.map (fun r => r.creation_time)
      ∧ (process_files_in_session files).Chain' (fun a b => a.stop_time = b.start_time) := by
  refine ⟨?_, List.mergeSort_perm files chapterLe,
    List.sorted_mergeSort chapterLe_trans chapterLe_total files, ?_, ?_, ?_, ?_⟩
  · rw [process_files_in_session, sessionLoop_length, List.length_mergeSort]
  · exact sessionLoop_map_chapter _ _ _
  · exact (sessionLoop_forall₂ _ _ _).imp
      (fun e r h => ⟨h.1, h.2.2.1, h.2.2.2.2.1⟩)
  · exact sessionLoop_head_start _ _
  · exact sessionLoop_chain _ _ _

/-- Witness for C1: the chained-interval invariant on a concrete two-chapter
session whose chapters are both parsed. -/
theorem C1_timeline_reconstruction_witness :
    (process_files_in_session [recA, recB]).Chain' (fun a b => a.stop_time = b.start_time) :=
  (C1_timeline_reconstruction [recA, recB] (by decide)).2.2.2.2.2.2

/-- C6: reconstruction is deterministic — a second run on the same, unchanged
input produces the same entries as the first — and feeding the reconstructor
its own chapter-sorted input changes nothing, as sorting is then the identity. -/
theorem C6_reconstruction_deterministic (files₁ files₂ : List ChapterRecord)
    (h : files₂ = files₁) :
    process_files_in_session files₂ = process_files_in_session files₁
      ∧ process_files_in_session (files₁.mergeSort chapterLe)
          = process_files_in_session files₁ := by
  subst h
  refine ⟨rfl, ?_⟩
  unfold process_files_in_session
  rw [List.mergeSort_of_sorted
    (List.sorted_mergeSort chapterLe_trans chapterLe_total files₂)]

/-- Witness for C6: determinism evaluated on a concrete one-chapter session. -/
theorem C6_reconstruction_deterministic_witness :
    process_files_in_session [recA] = process_files_in_session [recA] :=
  (C6_reconstruction_deterministic [recA] [recA] rfl).1

/-- C9: the reconstructor does not mutate its input: the loop hands back
every record it visits unchanged; the visited list is the sorted copy
(`sorted` allocates a fresh list), a permutation of the input; and the
entries produced agree with the pure reconstruction. -/
theorem C9_no_input_mutation (files : List ChapterRecord) :
    (sessionLoopFrame none 0 (files.mergeSort chapterLe)).2 = files.mergeSort chapterLe
      ∧ (files.mergeSort chapterLe).Perm files
      ∧ (sessionLoopFrame none 0 (files.mergeSort chapterLe)).1
          = process_files_in_session files :=
  ⟨(sessionLoopFrame_spec _ _ _).1, List.mergeSort_perm files chapterLe,
   (sessionLoopFrame_spec _ _ _).2⟩

/-- The keys present after inserting into a group map: the old keys, plus
possibly the inserted key. -/
theorem mem_map_fst_addToGroup (acc : List (Int × List ChapterRecord)) (k : Int)
    (r : ChapterRecord) (k' : Int) :
    k' ∈ (addToGroup acc k r).map Prod.fst ↔ k' ∈ acc.map Prod.fst ∨ k' = k := by
  induction acc with
  | nil => simp [addToGroup]
  | cons g rest ih =>
    by_cases hg : g.1 = k
    · simp only [addToGroup, if_pos hg, List.map_cons, List.mem_cons]
      subst hg
      tauto
    · simp only [addToGroup, if_neg hg, List.map_cons, List.mem_cons, ih]
      tauto

/-- Inserting into a group map keeps its keys pairwise distinct. -/
theorem addToGroup_pairwise (acc : List (Int × List ChapterRecord)) (k : Int)
    (r : ChapterRecord) (h : acc.Pairwise (fun a b => a.1 ≠ b.1)) :
    (addToGroup acc k r).Pairwise (fun a b => a.1 ≠ b.1) := by
  induction acc with
  | nil => simp [addToGroup]
  | cons g rest ih =>
    rcases List.pairwise_cons.1 h with ⟨hg, hrest⟩
    by_cases hk : g.1 = k
    · rw [addToGroup, if_pos hk]
      exact List.pairwise_cons.2 ⟨hg, hrest⟩
    · rw [addToGroup, if_neg hk]
      refine List.pairwise_cons.2 ⟨?_, ih hrest⟩
      intro b hb hcontra
      have hb1 : b.1 ∈ (addToGroup rest k r).map Prod.fst := List.mem_map_of_mem _ hb
      rcases (mem_map_fst_addToGroup rest k r b.1).1 hb1 with hmem | hbk
      · rcases List.mem_map.1 hmem with ⟨b', hb', hb'1⟩
        exact hg b' hb' (hcontra.trans hb'1.symm)
      · exact hk (hcontra.trans hbk)

/-- Inserting a record under its own key keeps every group member keyed by
its own session key. -/
theorem addToGroup_keyed (acc : List (Int × List ChapterRecord)) (k : Int)
    (r : ChapterRecord) (h : ∀ kg ∈ acc, ∀ x ∈ kg.2, sessionKey x = kg.1)
    (hr : sessionKey r = k) :
    ∀ kg ∈ addToGroup acc k r, ∀ x ∈ kg.2, sessionKey x = kg.1 := by
  induction acc with
  | nil =>
    intro kg hkg x hx
    simp only [addToGroup, List.mem_singleton] at hkg
    subst hkg
    simp only [List.mem_singleton] at hx
    subst hx
    exact hr
  | cons g rest ih =>
    intro kg hkg x hx
    by_cases hk : g.1 = k
    · rw [addToGroup, if_pos hk] at hkg
      rcases List.mem_cons.1 hkg with hkg | hkg
      · subst hkg
        rcases List.mem_append.1 hx with hx | hx
        · exact h g (List.mem_cons_self _ _) x hx
        · simp only [List.mem_singleton] at hx
          subst hx
          exact hr.trans hk.symm
      · exact h kg (List.mem_cons_of_mem _ hkg) x hx
    · rw [addToGroup, if_neg hk] at hkg
      rcases List.mem_cons.1 hkg with hkg | hkg
      · subst hkg
        exact h kg (List.mem_cons_self _ _) x hx
      · exact ih (fun kg' hkg' => h kg' (List.mem_cons_of_mem _ hkg')) kg hkg x hx

/-- Every member of the map after an insertion was already a member, or is
the record just inserted. -/
theorem addToGroup_members (acc : List (Int × List ChapterRecord)) (k : Int)
    (r : ChapterRecord) :
    ∀ kg ∈ addToGroup acc k r, ∀ x ∈ kg.2,
      (∃ kg' ∈ acc, x ∈ kg'.2) ∨ x = r := by
  induction acc with
  | nil =>
    intro kg hkg x hx
    simp only [addToGroup, List.mem_singleton] at hkg
    subst hkg
    simp only [List.mem_singleton] at hx
    exact Or.inr hx
  | cons g rest ih =>
    intro kg hkg x hx
    by_cases hk : g.1 = k
    · rw [addToGroup, if_pos hk] at hkg
      rcases List.mem_cons.1 hkg with hkg | hkg
      · subst hkg
        rcases List.mem_append.1 hx with hx | hx
        · exact Or.inl ⟨g, List.mem_cons_self _ _, hx⟩
        · simp only [List.mem_singleton] at hx
          exact Or.inr hx
      · exact Or.inl ⟨kg, List.mem_cons_of_mem _ hkg, hx⟩
    · rw [addToGroup, if_neg hk] at hkg
      rcases List.mem_cons.1 hkg with hkg | hkg
      · subst hkg
        exact Or.inl ⟨kg, List.mem_cons_self _ _, hx⟩
      · rcases ih kg hkg x hx with ⟨kg', hkg', hx'⟩ | hxr
        · exact Or.inl ⟨kg', List.mem_cons_of_mem _ hkg', hx'⟩
        · exact Or.inr hxr

/-- An insertion never removes a group or shrinks its member list. -/
theorem addToGroup_mono (acc : List (Int × List ChapterRecord)) (k0 : Int)
    (r0 : ChapterRecord) (k : Int) (g : List ChapterRecord)
    (h : (k, g) ∈ acc) :
    ∃ g', (k, g') ∈ addToGroup acc k0 r0 ∧ ∀ x ∈ g, x ∈ g' := by
  induction acc with
  | nil => cases h
  | cons a rest ih =>
    by_cases hk : a.1 = k0
    · rw [addToGroup, if_pos hk]
      rcases List.mem_cons.1 h with h | h
      · subst h
        exact ⟨g ++ [r0], List.mem_cons_self _ _,
          fun x hx => List.mem_append.2 (Or.inl hx)⟩
      · exact ⟨g, List.mem_cons_of_mem _ h, fun x hx => hx⟩
    · rw [addToGroup, if_neg hk]
      rcases List.mem_cons.1 h with h | h
      · exact ⟨g, by rw [h]; exact List.mem_cons_self _ _, fun x hx => hx⟩
      · rcases ih h with ⟨g', hg', hsub⟩
        exact ⟨g', List.mem_cons_of_mem _ hg', hsub⟩

/-- After inserting `r` under key `k`, some group with key `k` contains `r`. -/
theorem addToGroup_self (acc : List (Int × List ChapterRecord)) (k : Int)
    (r : ChapterRecord) :
    ∃ g, (k, g) ∈ addToGroup acc k r ∧ r ∈ g := by
  induction acc with
  | nil => exact ⟨[r], List.mem_singleton.2 rfl, List.mem_singleton.2 rfl⟩
  | cons a rest ih =>
    by_cases hk : a.1 = k
    · rw [addToGroup, if_pos hk]
      exact ⟨a.2 ++ [r], by rw [hk]; exact List.mem_cons_self _ _,
        List.mem_append.2 (Or.inr (List.mem_singleton.2 rfl))⟩
    · rw [addToGroup, if_neg hk]
      rcases ih with ⟨g, hg, hrg⟩
      exact ⟨g, List.mem_cons_of_mem _ hg, hrg⟩

/-- The grouping fold keeps keys pairwise distinct and every member keyed by
its own session key. -/
theorem groupFold_inv (files : List ChapterRecord) :
    ∀ acc : List (Int × List ChapterRecord),
      acc.Pairwise (fun a b => a.1 ≠ b.1) →
      (∀ kg ∈ acc, ∀ x ∈ kg.2, sessionKey x = kg.1) →
      (files.foldl (fun acc r => addToGroup acc (sessionKey r) r) acc).Pairwise
          (fun a b => a.1 ≠ b.1)
        ∧ ∀ kg ∈ files.foldl (fun acc r => addToGroup acc (sessionKey r) r) acc,
            ∀ x ∈ kg.2, sessionKey x = kg.1 := by
  induction files with
  | nil => intro acc h1 h2; exact ⟨h1, h2⟩
  | cons f rest ih =>
    intro acc h1 h2
    exact ih _ (addToGroup_pairwise acc _ f h1)
      (addToGroup_keyed acc _ f h2 rfl)

/-- Every member of any group produced by the fold comes from the initial map
or from the folded records. -/
theorem groupFold_members (files : List ChapterRecord) :
    ∀ acc : List (Int × List ChapterRecord),
      ∀ kg ∈ files.foldl (fun acc r => addToGroup acc (sessionKey r) r) acc,
        ∀ x ∈ kg.2, (∃ kg' ∈ acc, x ∈ kg'.2) ∨ x ∈ files := by
  induction files with
  | nil =>
    intro acc kg hkg x hx
    exact Or.inl ⟨kg, hkg, hx⟩
  | cons f rest ih =>
    intro acc kg hkg x hx
    rcases ih _ kg hkg x hx with ⟨kg', hkg', hx'⟩ | hxr
    · rcases addToGroup_members acc _ f kg' hkg' x hx' with h | h
      · exact Or.inl h
      · exact Or.inr (h ▸ List.mem_cons_self _ _)
    · exact Or.inr (List.mem_cons_of_mem _ hxr)

/-- The fold never removes a group or shrinks its member list. -/
theorem groupFold_mono (files : List ChapterRecord) :
    ∀ acc : List (Int × List ChapterRecord), ∀ k g, (k, g) ∈ acc →
      ∃ g', (k, g') ∈ files.foldl (fun acc r => addToGroup acc (sessionKey r) r) acc
        ∧ ∀ x ∈ g, x ∈ g' := by
  induction files with
  | nil => intro acc k g h; exact ⟨g, h, fun x hx => hx⟩
  | cons f rest ih =>
    intro acc k g h
    rcases addToGroup_mono acc _ f k g h with ⟨g', hg', hsub⟩
    rcases ih _ k g' hg' with ⟨g'', hg'', hsub'⟩
    exact ⟨g'', hg'', fun x hx => hsub' x (hsub x hx)⟩

/-- Every folded record ends up in a group carrying its own session key. -/
theorem groupFold_total (files : List ChapterRecord) :
    ∀ acc : List (Int × List ChapterRecord), ∀ r ∈ files,
      ∃ g, (sessionKey r, g) ∈
          files.foldl (fun acc r => addToGroup acc (sessionKey r) r) acc
        ∧ r ∈ g := by
  induction files with
  | nil => intro acc r h; cases h
  | cons f rest ih =>
    intro acc r hr
    rcases List.mem_cons.1 hr with hr | hr
    · subst hr
      rcases addToGroup_self acc (sessionKey r) r with ⟨g, hg, hrg⟩
      rcases groupFold_mono rest _ _ _ hg with ⟨g', hg', hsub⟩
      exact ⟨g', hg', hsub r hrg⟩
    · exact ih _ r hr

/-- In a list with pairwise-distinct keys, two members sharing a key are the
same member. -/
theorem eq_of_mem_of_fst_eq (l : List (Int × List ChapterRecord))
    (h : l.Pairwise (fun a b => a.1 ≠ b.1)) :
    ∀ p ∈ l, ∀ q ∈ l, p.1 = q.1 → p = q := by
  induction l with
  | nil => intro p hp; cases hp
  | cons a rest ih =>
    rcases List.pairwise_cons.1 h with ⟨ha, hrest⟩
    intro p hp q hq hpq
    rcases List.mem_cons.1 hp with hp | hp <;> rcases List.mem_cons.1 hq with hq | hq
    · rw [hp, hq]
    · exact absurd (hp ▸ hpq) (ha q hq)
    · exact absurd (hq ▸ hpq.symm) (ha p hp)
    · exact ih hrest p hp q hq hpq

/-- C5: grouping assigns each record to exactly one group, the one keyed by
its creation time truncated to the whole second; group members always come
from the input; keys are pairwise distinct; and two records whose creation
times differ by one second carry different session keys, hence land in
different sessions. -/
theorem C5_session_grouping (files : List ChapterRecord) :
    (group_files_by_session files).Pairwise (fun a b => a.1 ≠ b.1)
      ∧ (∀ kg ∈ group_files_by_session files, ∀ x ∈ kg.2, sessionKey x = kg.1)
      ∧ (∀ r ∈ files, ∃ g, (sessionKey r, g) ∈ group_files_by_session files ∧ r ∈ g)
      ∧ (∀ kg ∈ group_files_by_session files, ∀ x ∈ kg.2, x ∈ files)
      ∧ (∀ r ∈ files, ∃! kg : Int × List ChapterRecord,
          kg ∈ group_files_by_session files ∧ r ∈ kg.2)
      ∧ (∀ r1 r2 : ChapterRecord, r2.creation_time = r1.creation_time + 1 →
          sessionKey r1 ≠ sessionKey r2) := by
  have hinv := groupFold_inv files [] List.Pairwise.nil (by intro kg h; cases h)
  refine ⟨hinv.1, hinv.2, ?_, ?_, ?_, ?_⟩
  · exact fun r hr => groupFold_total files [] r hr
  · intro kg hkg x hx
    rcases groupFold_members files [] kg hkg x hx with ⟨kg', hkg', _⟩ | h
    · cases hkg'
    · exact h
  · intro r hr
    rcases groupFold_total files [] r hr with ⟨g, hg, hrg⟩
    refine ⟨(sessionKey r, g), ⟨hg, hrg⟩, ?_⟩
    intro kg ⟨hkg, hrkg⟩
    exact eq_of_mem_of_fst_eq _ hinv.1 kg hkg (sessionKey r, g) hg
      (hinv.2 kg hkg r hrkg).symm
  · intro r1 r2 h
    simp only [sessionKey, h]
    rw [show (1 : ℚ) = ((1 : ℤ) : ℚ) by norm_num, Int.floor_add_int]
    omega

/-- Witness for C5: on a concrete one-record input, the record lands in the
group keyed by its truncated creation time, and two concrete records one
second apart get different session keys. -/
theorem C5_session_grouping_witness :
    (∃ g, (sessionKey recC, g) ∈ group_files_by_session [recC] ∧ recC ∈ g)
      ∧ sessionKey recW1 ≠ sessionKey recW2 :=
  ⟨(C5_session_grouping [recC]).2.2.1 recC (by decide),
   (C5_session_grouping []).2.2.2.2.2 recW1 recW2 rfl⟩

/-- C7 (Scenario A): one session, chapter 0 with duration 10 s starting at
`2024-01-01T00:00:00Z` (epoch second 1704067200) and chapter 1 with duration
5 s, reconstructs to chapter 0 running [00:00:00, 00:00:10] and chapter 1
running [00:00:10, 00:00:15]. -/
theorem C7_scenario_a :
    process_files_in_session [rS0, rS1] =
      [⟨"GX000001.MP4", 1704067200, 1704067210, 10, some 0, some 1, "."⟩,
       ⟨"GX010001.MP4", 1704067210, 1704067215, 5, some 1, some 1, "."⟩] := by
  unfold process_files_in_session
  rw [List.mergeSort_of_sorted (by decide)]
  norm_num [sessionLoop, rS0, rS1]

/-- Every listed `(folder, filename)` pair has a filename ending in the
case-sensitive `'.MP4'`, in both scan modes. -/
theorem listed_endswith (s : ScanInput) :
    ∀ p ∈ list_mp4_files_in_dir s, endswith p.2 ".MP4" = true := by
  cases s with
  | flat entries =>
    intro p hp
    simp only [list_mp4_files_in_dir, List.mem_map] at hp
    rcases hp with ⟨f, hf, rfl⟩
    exact (List.mem_filter.1 hf).2
  | walk dirs =>
    intro p hp
    simp only [list_mp4_files_in_dir, List.mem_flatMap] at hp
    rcases hp with ⟨rf, _, hmem⟩
    rcases List.mem_filterMap.1 hmem with ⟨file, _, hsome⟩
    by_cases he : endswith file ".MP4" = true
    · rw [if_pos he] at hsome
      rcases hparse : parse_filename file with ⟨oc, os⟩
      rw [hparse] at hsome
      cases oc with
      | none => simp at hsome
      | some c =>
        cases os with
        | none => simp at hsome
        | some s' =>
          simp only [Option.some_inj] at hsome
          rw [← hsome]
          exact he
    · rw [if_neg he] at hsome
      cases hsome

/-- No listed filename is `ABCDEFGH.mp4`: its lowercase extension fails the
case-sensitive suffix test. -/
theorem listed_ne_lowercase (s : ScanInput) :
    ∀ p ∈ list_mp4_files_in_dir s, p.2 ≠ "ABCDEFGH.mp4" := by
  intro p hp hcontra
  have h := listed_endswith s p hp
  rw [hcontra] at h
  exact absurd h (by decide)

/-- Every metadata record's filename is the filename of some listed pair. -/
theorem metadata_file_mem (probe : String × String → ℚ × ℚ) (s : ScanInput) :
    ∀ r ∈ get_file_metadata probe s, ∃ p ∈ list_mp4_files_in_dir s, r.file = p.2 := by
  intro r hr
  simp only [get_file_metadata, List.mem_map] at hr
  rcases hr with ⟨p, hp, rfl⟩
  exact ⟨p, hp, rfl⟩

/-- Every emitted entry's filename is the filename of some looped record. -/
theorem sessionLoop_mem_file (l : List ChapterRecord) :
    ∀ st prev e, e ∈ sessionLoop st prev l → ∃ r ∈ l, e.Filename = r.file := by
  induction l with
  | nil => intro st prev e h; cases h
  | cons f rest ih =>
    intro st prev e h
    simp only [sessionLoop, List.mem_cons] at h
    rcases h with h | h
    · exact ⟨f, List.mem_cons_self _ _, by rw [h]⟩
    · rcases ih _ _ e h with ⟨r, hr, hfile⟩
      exact ⟨r, List.mem_cons_of_mem _ hr, hfile⟩

/-- C4 (evidence for the defect): in a non-recursive scan the listing filters
only on the `.MP4` suffix (src/extract_timestamps.py:101) without the decode
check the recursive branch performs (src/extract_timestamps.py:94-98), so a
file whose name the Name Decoder rejects still gets a metadata record — with
`chapter = None` and `session = None` — while the same file in a recursive
scan is excluded entirely. -/
theorem C4_placeholder_record :
    get_file_metadata probe0 (.flat ["ABCD1234.MP4"])
        = [⟨"ABCD1234.MP4", 0, 0, none, none, "."⟩]
      ∧ (∃ r ∈ get_file_metadata probe0 (.flat ["ABCD1234.MP4"]),
          r.chapter = none ∧ r.session = none)
      ∧ get_file_metadata probe0 (.walk [(".", ["ABCD1234.MP4"])]) = [] := by
  refine ⟨by decide, ?_, by decide⟩
  exact ⟨⟨"ABCD1234.MP4", 0, 0, none, none, "."⟩, by decide, rfl, rfl⟩

/-- C8: a file named `ABCDEFGH.mp4` (lowercase extension) fails the
case-sensitive suffix test, so in both scan modes it is never listed, never
probed into a metadata record, never grouped into a session, and never
emitted as a timeline entry. -/
theorem C8_lowercase_mp4_excluded (s : ScanInput) (probe : String × String → ℚ × ℚ) :
    endswith "ABCDEFGH.mp4" ".MP4" = false
      ∧ (∀ p ∈ list_mp4_files_in_dir s, endswith p.2 ".MP4" = true)
      ∧ (∀ p ∈ list_mp4_files_in_dir s, p.2 ≠ "ABCDEFGH.mp4")
      ∧ (∀ r ∈ get_file_metadata probe s, r.file ≠ "ABCDEFGH.mp4")
      ∧ (∀ kg ∈ group_files_by_session (get_file_metadata probe s), ∀ r ∈ kg.2,
          r.file ≠ "ABCDEFGH.mp4")
      ∧ (∀ e ∈ process_videos probe s, e.Filename ≠ "ABCDEFGH.mp4") := by
  have hmeta : ∀ r ∈ get_file_metadata probe s, r.file ≠ "ABCDEFGH.mp4" := by
    intro r hr
    rcases metadata_file_mem probe s r hr with ⟨p, hp, hfile⟩
    rw [hfile]
    exact listed_ne_lowercase s p hp
  have hgrp : ∀ kg ∈ group_files_by_session (get_file_metadata probe s), ∀ r ∈ kg.2,
      r.file ≠ "ABCDEFGH.mp4" := by
    intro kg hkg r hr
    rcases groupFold_members (get_file_metadata probe s) [] kg hkg r hr with
      ⟨kg', hkg', _⟩ | h
    · cases hkg'
    · exact hmeta r h
  refine ⟨by decide, listed_endswith s, listed_ne_lowercase s, hmeta, hgrp, ?_⟩
  intro e he
  simp only [process_videos, List.mem_flatMap] at he
  rcases he with ⟨kg, hkg, he⟩
  rw [process_files_in_session] at he
  rcases sessionLoop_mem_file _ _ _ e he with ⟨r, hr, hfile⟩
  rw [hfile]
  exact hgrp kg hkg r (List.mem_mergeSort.1 hr)

/-- Evaluation of `process_videos` on the concrete directory `scanC` (one
decodable file, one lowercase-extension file) under `probe0`. -/
theorem process_videos_scanC : process_videos probe0 scanC = [entryC] := by
  have h1 : get_file_metadata probe0 scanC = [recC] := by decide
  have h2 : group_files_by_session [recC] = [(0, [recC])] := by decide
  rw [process_videos, h1, h2]
  simp only [List.flatMap_cons, List.flatMap_nil, List.append_nil]
  rw [process_files_in_session, List.mergeSort_singleton]
  norm_num [sessionLoop, recC, entryC]

/-- Witness for C8: the exclusion evaluated on `scanC`, at each pipeline
stage, on concrete members. -/
theorem C8_lowercase_mp4_excluded_witness :
    endswith "GX010001.MP4" ".MP4" = true
      ∧ "GX010001.MP4" ≠ "ABCDEFGH.mp4"
      ∧ recC.file ≠ "ABCDEFGH.mp4"
      ∧ recC.file ≠ "ABCDEFGH.mp4"
      ∧ entryC.Filename ≠ "ABCDEFGH.mp4" :=
  ⟨(C8_lowercase_mp4_excluded scanC probe0).2.1 (".", "GX010001.MP4") (by decide),
   (C8_lowercase_mp4_excluded scanC probe0).2.2.1 (".", "GX010001.MP4") (by decide),
   (C8_lowercase_mp4_excluded scanC probe0).2.2.2.1 recC (by decide),
   (C8_lowercase_mp4_excluded scanC probe0).2.2.2.2.1 (0, [recC]) (by decide)
     recC (by decide),
   (C8_lowercase_mp4_excluded scanC probe0).2.2.2.2.2 entryC
     (by rw [process_videos_scanC]; exact List.mem_singleton.2 rfl)⟩

end GoPro
